import Mathlib

/-!
# Verification of the resumable, rate-limited ingestion pipeline

Shallow embedding of the core of the `ai-chatbot-langchain-scrimba`
repository:

* `src/supabaseService.js` / the inline Supabase calls of `src/index.js` —
  the durable progress store (`checkExistingDocuments`, `checkExistingChunk`,
  `insertChunk`, `getDocumentCount`);
* `src/index.js` `processTextFile` — the resumable ingestion loop;
* `src/rateLimit.js` — the token-bucket `RateLimiter`
  (`waitForToken`, `_refillTokens`, and the timeout callback inside
  `waitForToken`);
* the `withRetry` helper of `ChatManager` — bounded retry with
  rate-limit classification and exponential backoff.

External collaborators (the Supabase client, the OpenAI embedding call,
wall-clock time) are modelled as explicit inputs: the store is a list of
records, query failures are an `Except` input, per-chunk embedding/insert
outcomes are an oracle `Int → Option (List Nat)` (`none` = the chunk's
embedding or insert threw after retries were exhausted), and `Date.now()`
values are `Nat` arguments.
-/

/-! ## Data model: persisted document records

`insertChunk` writes `{ content, metadata: { source, chunkIndex, length,
timestamp }, embedding }`.  The timestamp (`new Date().toISOString()`) is an
opaque wall-clock string no claim inspects, so it is not carried; embedding
vectors are opaque data from the provider, carried as `List Nat`. -/

structure Metadata where
  source : String
  chunkIndex : Int
  length : Nat
deriving DecidableEq, Repr

structure DocRecord where
  content : String
  metadata : Metadata
  embedding : List Nat
deriving DecidableEq, Repr

structure ExistingDocs where
  hasDocuments : Bool
  lastProcessedIndex : Int
deriving DecidableEq, Repr

/-- The row produced by `.order('metadata->chunkIndex', { ascending: false
}).limit(1)`: the maximal `chunkIndex` over all rows, `none` on an empty
table. -/
def maxChunkIndex : List DocRecord → Option Int
  | [] => none
  | r :: rest =>
    match maxChunkIndex rest with
    | none => some r.metadata.chunkIndex
    | some m => some (max r.metadata.chunkIndex m)

/-- `checkExistingDocuments` (src/supabaseService.js:8-26, duplicated at
src/index.js:19-48).  The query result is an input: `.error` models the
Supabase client failing.  The `catch` branch logs and returns
`{ hasDocuments: false, lastProcessedIndex: -1 }`. -/
def checkExistingDocuments (q : Except String (List DocRecord)) : ExistingDocs :=
  match q with
  | .error _ => { hasDocuments := false, lastProcessedIndex := -1 }
  | .ok store =>
    match maxChunkIndex store with
    | none => { hasDocuments := false, lastProcessedIndex := -1 }
    | some m => { hasDocuments := true, lastProcessedIndex := m }

/-- `checkExistingChunk` (src/supabaseService.js:28-36, inline at
src/index.js:226-230): `.eq('metadata->chunkIndex', index).maybeSingle()`
— a match on the chunk index alone, with no filter on the source.  This is
the `data` of a SUCCESSFUL query; the call site's failure channel is
`checkExistingChunkData` below. -/
def checkExistingChunk (store : List DocRecord) (index : Int) : Bool :=
  store.any (fun r => r.metadata.chunkIndex == index)

/-- The value of `existingChunk` after
`const { data: existingChunk } = await ...maybeSingle()`
(src/supabaseService.js:29-35, inline at src/index.js:226-230): only
`data` is destructured and the response's `error` is silently discarded,
so a failed query yields `null` — indistinguishable from "no such
chunk". -/
def checkExistingChunkData (q : Except String (List DocRecord)) (index : Int) : Bool :=
  match q with
  | .error _ => false
  | .ok store => checkExistingChunk store index

/-- `insertChunk` (src/supabaseService.js:38-51, inline at
src/index.js:247-253): an unconditional append — the table has no
uniqueness constraint, so the insert succeeds even if a record with the
same index is already present. -/
def insertChunk (store : List DocRecord) (content : String) (embedding : List Nat)
    (index : Int) : List DocRecord :=
  store ++ [{ content := content,
              metadata := { source := "scrimba-info.txt", chunkIndex := index,
                            length := content.length },
              embedding := embedding }]

/-- `getDocumentCount` (src/supabaseService.js:53-59, inline at
src/index.js:275-277): `select('*', { count: 'exact', head: true })` —
the number of ALL rows of the table, with no source filter. -/
def getDocumentCount (store : List DocRecord) : Nat :=
  store.length

/-! ## The ingestion loop (`processTextFile`, src/index.js:175-288) -/

structure ProgressEvent where
  current : Int
  total : Nat
  resuming : Bool
deriving DecidableEq, Repr

structure LoopState where
  store : List DocRecord
  processedCount : Int
  events : List ProgressEvent
deriving DecidableEq, Repr

/-- `documentChunks[i]`: JavaScript array indexing — `undefined` for `i`
outside `[0, length)`, in which case `chunk.pageContent` throws inside the
per-chunk `try`. -/
def jsGetChunk (chunks : List String) (i : Int) : Option String :=
  if i < 0 then none else chunks.get? i.toNat

/-- The integer sequence of `for (let i = start; i < stop; i++)`. -/
def intRange (start stop : Int) : List Int :=
  (List.range (stop - start).toNat).map (fun k : Nat => start + (k : Int))

/-- One iteration of the loop at src/index.js:218-272.  `oracle i = none`
models `generateEmbedding` or the insert throwing for chunk `i` after its
retries were exhausted; the surrounding `catch (chunkError) { continue }`
then drops the iteration without a commit, a count, or an event.  A chunk
that already exists is skipped with `processedCount++` but no event; only
a successful insert emits a `processingUpdate` event. -/
def processChunkStep (lpi : Int) (total : Nat) (oracle : Int → Option (List Nat))
    (chunks : List String) (s : LoopState) (i : Int) : LoopState :=
  if checkExistingChunk s.store i then
    { s with processedCount := s.processedCount + 1 }
  else
    match jsGetChunk chunks i with
    | none => s
    | some content =>
      match oracle i with
      | none => s
      | some emb =>
        let pc := s.processedCount + 1
        { store := insertChunk s.store content emb i,
          processedCount := pc,
          events := s.events ++ [{ current := pc, total := total,
                                   resuming := decide (0 ≤ lpi) }] }

/-- The `for` loop of `processTextFile`, folded over its index list. -/
def runLoop (lpi : Int) (total : Nat) (oracle : Int → Option (List Nat))
    (chunks : List String) : List Int → LoopState → LoopState
  | [], s => s
  | i :: rest, s =>
    runLoop lpi total oracle chunks rest (processChunkStep lpi total oracle chunks s i)

structure PipelineResult where
  store : List DocRecord
  events : List ProgressEvent
  isComplete : Bool
deriving DecidableEq, Repr

/-- `processTextFile` (src/index.js:175-288).  `lookup` is the result of the
initial `checkExistingDocuments` query (its `.error` case models a failing
Supabase call there), `store0` the table contents seen by the loop's own
queries, `chunks` the splitter output, `oracle` the per-chunk
embedding/insert outcome.  The function reads the resume cursor, dispatches
the initial `processingUpdate` event, runs the loop from
`lastProcessedIndex + 1`, and compares the final row count with
`totalChunks`. -/
def processTextFile (lookup : Except String (List DocRecord))
    (store0 : List DocRecord) (chunks : List String)
    (oracle : Int → Option (List Nat)) : PipelineResult :=
  let lpi := (checkExistingDocuments lookup).lastProcessedIndex
  let total := chunks.length
  let pc0 : Int := if 0 ≤ lpi then lpi + 1 else 0
  let s0 : LoopState :=
    { store := store0, processedCount := pc0,
      events := [{ current := pc0, total := total, resuming := decide (0 ≤ lpi) }] }
  let sF := runLoop lpi total oracle chunks (intRange (lpi + 1) (total : Int)) s0
  { store := sF.store, events := sF.events,
    isComplete := getDocumentCount sF.store == total }

/-- The record committed for chunk `i` by a successful loop iteration. -/
def mkRecord (content : String) (embedding : List Nat) (i : Int) : DocRecord :=
  { content := content,
    metadata := { source := "scrimba-info.txt", chunkIndex := i,
                  length := content.length },
    embedding := embedding }

/-- `processChunkStep` with the existence query's failure channel explicit:
`checkFail i = true` means the Supabase call for index `i` fails in this
run, and — because the call site discards `error` — the iteration then
behaves exactly as if the chunk were absent and proceeds to embed and
insert. -/
def processChunkStepQ (lpi : Int) (total : Nat) (checkFail : Int → Bool)
    (oracle : Int → Option (List Nat)) (chunks : List String)
    (s : LoopState) (i : Int) : LoopState :=
  if checkExistingChunkData
      (if checkFail i then .error "query failed" else .ok s.store) i then
    { s with processedCount := s.processedCount + 1 }
  else
    match jsGetChunk chunks i with
    | none => s
    | some content =>
      match oracle i with
      | none => s
      | some emb =>
        let pc := s.processedCount + 1
        { store := insertChunk s.store content emb i,
          processedCount := pc,
          events := s.events ++ [{ current := pc, total := total,
                                   resuming := decide (0 ≤ lpi) }] }

/-- The `for` loop of `processTextFile` over the fallible step. -/
def runLoopQ (lpi : Int) (total : Nat) (checkFail : Int → Bool)
    (oracle : Int → Option (List Nat)) (chunks : List String) :
    List Int → LoopState → LoopState
  | [], s => s
  | i :: rest, s =>
    runLoopQ lpi total checkFail oracle chunks rest
      (processChunkStepQ lpi total checkFail oracle chunks s i)

/-- `processTextFile` with the per-chunk existence query's failure channel
explicit; `processTextFile` is the instance in which every existence query
succeeds (`processTextFileQ_no_failure` below). -/
def processTextFileQ (lookup : Except String (List DocRecord))
    (checkFail : Int → Bool) (store0 : List DocRecord) (chunks : List String)
    (oracle : Int → Option (List Nat)) : PipelineResult :=
  let lpi := (checkExistingDocuments lookup).lastProcessedIndex
  let total := chunks.length
  let pc0 : Int := if 0 ≤ lpi then lpi + 1 else 0
  let s0 : LoopState :=
    { store := store0, processedCount := pc0,
      events := [{ current := pc0, total := total, resuming := decide (0 ≤ lpi) }] }
  let sF := runLoopQ lpi total checkFail oracle chunks (intRange (lpi + 1) (total : Int)) s0
  { store := sF.store, events := sF.events,
    isComplete := getDocumentCount sF.store == total }

/-! ## The token bucket (`RateLimiter`, src/rateLimit.js)

JavaScript closures are compared by reference in `queue.indexOf(...)`, so
queue entries are modelled as tagged values: `wrapper id` is the closure
`() => { this.tokens--; resolve() }` pushed by `waitForToken`, and
`resolver id` is the bare `resolve` function of the same pending promise.
Two values are the same JavaScript reference exactly when they are equal
in this type. -/

inductive JsFun where
  | wrapper (id : Nat)
  | resolver (id : Nat)
deriving DecidableEq, Repr

structure RLState where
  maxRequests : Nat
  timeWindowMs : Nat
  tokens : Int
  lastRefill : Nat
  queue : List JsFun
deriving DecidableEq, Repr

namespace RateLimiter

/-- The constructor (src/rateLimit.js:2-8); `now` is `Date.now()`. -/
def init (maxRequests timeWindowSeconds now : Nat) : RLState :=
  { maxRequests := maxRequests, timeWindowMs := timeWindowSeconds * 1000,
    tokens := (maxRequests : Int), lastRefill := now, queue := [] }

/-- `Math.floor(timePassed / this.timeWindowMs) * this.maxRequests`
(src/rateLimit.js:39): uses `Nat` division, which is the floor. -/
def tokensToAdd (timePassed timeWindowMs maxRequests : Nat) : Nat :=
  (timePassed / timeWindowMs) * maxRequests

/-- The `while` loop of `_refillTokens` (src/rateLimit.js:46-49): while the
queue is non-empty and `tokens > 0`, shift the front entry and call it —
each called wrapper does `this.tokens--` and resolves its waiter.  Returns
the remaining queue, the remaining tokens, and the entries that ran. -/
def drain : List JsFun → Int → List JsFun × Int × List JsFun
  | [], t => ([], t, [])
  | x :: rest, t =>
    if 0 < t then
      let r := drain rest (t - 1)
      (r.1, r.2.1, x :: r.2.2)
    else (x :: rest, t, [])

def refillTokens (st : RLState) (now : Nat) : RLState × List JsFun :=
  let timePassed := now - st.lastRefill
  let add := tokensToAdd timePassed st.timeWindowMs st.maxRequests
  if 0 < add then
    let t1 := min (st.maxRequests : Int) (st.tokens + (add : Int))
    let d := drain st.queue t1
    ({ st with tokens := d.2.1, lastRefill := now, queue := d.1 }, d.2.2)
  else (st, [])

inductive AcquireOutcome where
  | immediate
  | queued (id : Nat)
deriving DecidableEq, Repr

/-- `waitForToken` (src/rateLimit.js:10-34) without its timeout callback
(that callback is `timeoutTick` below): refill lazily, consume a token when
one is available, otherwise push the wrapper closure of a fresh pending
promise (`newId`) onto the queue.  Also returns the waiters a refill
resolved. -/
def waitForToken (st : RLState) (now : Nat) (newId : Nat) :
    RLState × List JsFun × AcquireOutcome :=
  let p := refillTokens st now
  if 0 < p.1.tokens then
    ({ p.1 with tokens := p.1.tokens - 1 }, p.2, .immediate)
  else
    ({ p.1 with queue := p.1.queue ++ [.wrapper newId] }, p.2, .queued newId)

/-- JavaScript `Array.prototype.indexOf`: the index of the first entry
`===`-equal to `x`, or `-1`. -/
def jsIndexOf (l : List JsFun) (x : JsFun) : Int :=
  match l with
  | [] => -1
  | y :: rest =>
    if y == x then 0
    else
      let r := jsIndexOf rest x
      if r == -1 then -1 else r + 1

/-- The `setTimeout` callback inside `waitForToken`
(src/rateLimit.js:26-32) for the waiter `id`:
`const index = this.queue.indexOf(resolve); if (index > -1) {
this.queue.splice(index, 1); resolve() }`.  It searches the queue for the
bare `resolve` function.  Returns the new queue and whether `resolve()`
was called. -/
def timeoutTick (queue : List JsFun) (id : Nat) : List JsFun × Bool :=
  let index := jsIndexOf queue (.resolver id)
  if -1 < index then (queue.eraseIdx index.toNat, true) else (queue, false)

/-- The state-mutating operations a history of calls can apply. -/
inductive RLOp where
  | acquire (now id : Nat)
  | refill (now : Nat)
deriving Repr

def applyOp (st : RLState) : RLOp → RLState
  | .acquire now id => (waitForToken st now id).1
  | .refill now => (refillTokens st now).1

def applyOps (st : RLState) (ops : List RLOp) : RLState :=
  ops.foldl applyOp st

end RateLimiter

/-- Modelled from the spec: continuous proportional refill — "tokens accrue
continuously at rate `capacity / windowDurationMs`", so an elapsed time
`timePassed` accrues `timePassed * capacity / windowDurationMs` tokens
(floored at grant time). -/
def spec_proportionalTokens (timePassed timeWindowMs maxRequests : Nat) : Nat :=
  timePassed * maxRequests / timeWindowMs

/-! ## Bounded retry (`withRetry`, chatManager `withRetry`)

The operation passed to `withRetry` is modelled by the outcome of each of
its sequential attempts: attempt `i` either succeeds with a value, throws
an error classified as rate-limited (`error.response?.status === 429 ||
error.message?.includes('Rate limit')`, optionally carrying the
`/try again in (\d+)s/` suggestion in seconds), or throws any other
error. -/

structure RLErr where
  suggestedS : Option Nat
  msgId : Nat
deriving DecidableEq, Repr

inductive JsError where
  | rateLimit (e : RLErr)
  | other (id : Nat)
deriving DecidableEq, Repr

inductive Outcome (α : Type) where
  | success (v : α)
  | fail (e : JsError)
deriving DecidableEq, Repr

/-- The wait before the attempt after rate-limited failure number `i`
(0-based): `waitMatch ? parseInt(waitMatch[1]) * 1000 :
initialDelay * Math.pow(2, i)`. -/
def backoffDelay (initialDelay i : Nat) (e : RLErr) : Nat :=
  match e.suggestedS with
  | some s => s * 1000
  | none => initialDelay * 2 ^ i

/-- The `for (let i = 0; i < maxRetries; i++)` body of `withRetry`,
by recursion on the remaining iterations.  Returns the thrown error
(`lastError` once the loop is exhausted) or the value, with the list of
delays slept. -/
def withRetryGo {α : Type} (op : Nat → Outcome α) (initialDelay : Nat) :
    Nat → Nat → Option JsError → List Nat → Except (Option JsError) α × List Nat
  | 0, _, lastError, delays => (.error lastError, delays)
  | remaining + 1, i, _, delays =>
    match op i with
    | .success v => (.ok v, delays)
    | .fail (.rateLimit e) =>
      withRetryGo op initialDelay remaining (i + 1) (some (.rateLimit e))
        (delays ++ [backoffDelay initialDelay i e])
    | .fail (.other id) => (.error (some (.other id)), delays)

/-- `withRetry(operation, maxRetries = 3, initialDelay = 20000)`. -/
def withRetry {α : Type} (op : Nat → Outcome α) (maxRetries initialDelay : Nat) :
    Except (Option JsError) α × List Nat :=
  withRetryGo op initialDelay maxRetries 0 none []

/-! ## Basic lemmas -/

theorem mem_intRange {start stop i : Int} :
    i ∈ intRange start stop ↔ start ≤ i ∧ i < stop := by
  unfold intRange
  rw [List.mem_map]
  constructor
  · rintro ⟨k, hk, rfl⟩
    rw [List.mem_range] at hk
    omega
  · intro ⟨h1, h2⟩
    exact ⟨(i - start).toNat, List.mem_range.mpr (by omega), by omega⟩

theorem intRange_nodup (start stop : Int) : (intRange start stop).Nodup := by
  unfold intRange
  refine List.Nodup.map ?_ (List.nodup_range _)
  intro a b h
  have h' : start + (a : Int) = start + (b : Int) := h
  omega

theorem intRange_length (start stop : Int) :
    (intRange start stop).length = (stop - start).toNat := by
  unfold intRange
  rw [List.length_map, List.length_range]

theorem intRange_empty {start stop : Int} (h : stop ≤ start) :
    intRange start stop = [] := by
  unfold intRange
  have h0 : (stop - start).toNat = 0 := by omega
  rw [h0]
  rfl

theorem checkExistingChunk_iff {store : List DocRecord} {i : Int} :
    checkExistingChunk store i = true ↔ ∃ r ∈ store, r.metadata.chunkIndex = i := by
  simp [checkExistingChunk, List.any_eq_true]

theorem checkExistingChunk_append (a b : List DocRecord) (i : Int) :
    checkExistingChunk (a ++ b) i = (checkExistingChunk a i || checkExistingChunk b i) := by
  simp [checkExistingChunk]

theorem checkExistingChunk_insert (store : List DocRecord) (c : String)
    (e : List Nat) (j i : Int) :
    checkExistingChunk (insertChunk store c e j) i
      = (checkExistingChunk store i || j == i) := by
  simp [insertChunk, checkExistingChunk, beq_iff_eq]

theorem maxChunkIndex_nonempty {store : List DocRecord} (h : store ≠ []) :
    ∃ m, maxChunkIndex store = some m := by
  cases store with
  | nil => exact absurd rfl h
  | cons r rest =>
    rw [maxChunkIndex]
    cases maxChunkIndex rest with
    | none => exact ⟨r.metadata.chunkIndex, rfl⟩
    | some m => exact ⟨max r.metadata.chunkIndex m, rfl⟩

theorem maxChunkIndex_le {store : List DocRecord} {m : Int}
    (h : maxChunkIndex store = some m) :
    ∀ r ∈ store, r.metadata.chunkIndex ≤ m := by
  induction store generalizing m with
  | nil => simp
  | cons r rest ih =>
    intro s hs
    rw [List.mem_cons] at hs
    cases hmr : maxChunkIndex rest with
    | none =>
      simp only [maxChunkIndex, hmr, Option.some.injEq] at h
      rcases hs with rfl | hs
      · omega
      · exfalso
        obtain ⟨m', hm'⟩ := @maxChunkIndex_nonempty rest (by rintro rfl; simp at hs)
        rw [hm'] at hmr
        exact Option.noConfusion hmr
    | some m' =>
      simp only [maxChunkIndex, hmr, Option.some.injEq] at h
      rcases hs with rfl | hs
      · omega
      · have := ih hmr s hs
        omega

theorem maxChunkIndex_mem {store : List DocRecord} {m : Int}
    (h : maxChunkIndex store = some m) :
    ∃ r ∈ store, r.metadata.chunkIndex = m := by
  induction store generalizing m with
  | nil => simp [maxChunkIndex] at h
  | cons r rest ih =>
    cases hmr : maxChunkIndex rest with
    | none =>
      simp only [maxChunkIndex, hmr, Option.some.injEq] at h
      exact ⟨r, by simp, by omega⟩
    | some m' =>
      simp only [maxChunkIndex, hmr, Option.some.injEq] at h
      rcases max_cases r.metadata.chunkIndex m' with ⟨heq, _⟩ | ⟨heq, _⟩
      · exact ⟨r, by simp, by omega⟩
      · obtain ⟨s, hs, hsi⟩ := ih hmr
        exact ⟨s, by simp [hs], by omega⟩

theorem maxChunkIndex_eq_some {store : List DocRecord} {k : Int}
    (hmem : ∃ r ∈ store, r.metadata.chunkIndex = k)
    (hle : ∀ r ∈ store, r.metadata.chunkIndex ≤ k) :
    maxChunkIndex store = some k := by
  obtain ⟨r, hr, hri⟩ := hmem
  obtain ⟨m, hm⟩ := @maxChunkIndex_nonempty store (by rintro rfl; simp at hr)
  rw [hm]
  have h1 : m ≤ k := by
    obtain ⟨s, hs, hsi⟩ := maxChunkIndex_mem hm
    have := hle s hs
    omega
  have h2 : k ≤ m := by
    have := maxChunkIndex_le hm r hr
    omega
  congr 1
  omega

/-! ## Rate limiter lemmas -/

namespace RateLimiter

theorem drain_tokens_bounds :
    ∀ (q : List JsFun) (t : Int), 0 ≤ t →
      0 ≤ (drain q t).2.1 ∧ (drain q t).2.1 ≤ t := by
  intro q
  induction q with
  | nil => intro t ht; simpa [drain] using ht
  | cons x rest ih =>
    intro t ht
    by_cases hpos : 0 < t
    · have h' := ih (t - 1) (by omega)
      simp only [drain, if_pos hpos]
      exact ⟨h'.1, by omega⟩
    · simp only [drain, if_neg hpos]
      exact ⟨ht, le_refl t⟩

theorem drain_queue_mem :
    ∀ (q : List JsFun) (t : Int), ∀ e ∈ (drain q t).1, e ∈ q := by
  intro q
  induction q with
  | nil => intro t e he; simp [drain] at he
  | cons x rest ih =>
    intro t e he
    by_cases hpos : 0 < t
    · simp only [drain, if_pos hpos] at he
      exact List.mem_cons_of_mem x (ih (t - 1) e he)
    · simp only [drain, if_neg hpos] at he
      exact he

theorem refillTokens_tokens_bounds (st : RLState) (now : Nat)
    (h0 : 0 ≤ st.tokens) (h1 : st.tokens ≤ (st.maxRequests : Int)) :
    0 ≤ (refillTokens st now).1.tokens ∧
      (refillTokens st now).1.tokens ≤ (st.maxRequests : Int) := by
  unfold refillTokens
  by_cases hadd : 0 < tokensToAdd (now - st.lastRefill) st.timeWindowMs st.maxRequests
  · simp only [if_pos hadd]
    have hmin0 : (0 : Int) ≤ min (st.maxRequests : Int)
        (st.tokens + (tokensToAdd (now - st.lastRefill) st.timeWindowMs st.maxRequests : Int)) := by
      apply le_min
      · positivity
      · omega
    have hd := drain_tokens_bounds st.queue
      (min (st.maxRequests : Int)
        (st.tokens + (tokensToAdd (now - st.lastRefill) st.timeWindowMs st.maxRequests : Int)))
      hmin0
    refine ⟨hd.1, ?_⟩
    have := min_le_left (st.maxRequests : Int)
      (st.tokens + (tokensToAdd (now - st.lastRefill) st.timeWindowMs st.maxRequests : Int))
    omega
  · simp only [if_neg hadd]
    exact ⟨h0, h1⟩

theorem refillTokens_fields (st : RLState) (now : Nat) :
    (refillTokens st now).1.maxRequests = st.maxRequests ∧
      (refillTokens st now).1.timeWindowMs = st.timeWindowMs := by
  unfold refillTokens
  by_cases hadd : 0 < tokensToAdd (now - st.lastRefill) st.timeWindowMs st.maxRequests
  · simp [if_pos hadd]
  · simp [if_neg hadd]

theorem applyOp_bounds (st : RLState) (op : RLOp)
    (h0 : 0 ≤ st.tokens) (h1 : st.tokens ≤ (st.maxRequests : Int)) :
    (applyOp st op).maxRequests = st.maxRequests ∧
      0 ≤ (applyOp st op).tokens ∧
      (applyOp st op).tokens ≤ (st.maxRequests : Int) := by
  cases op with
  | refill now =>
    have hb := refillTokens_tokens_bounds st now h0 h1
    have hf := refillTokens_fields st now
    exact ⟨hf.1, hb.1, hb.2⟩
  | acquire now id =>
    have hb := refillTokens_tokens_bounds st now h0 h1
    have hf := refillTokens_fields st now
    simp only [applyOp, waitForToken]
    by_cases hpos : 0 < (refillTokens st now).1.tokens
    · simp only [if_pos hpos]
      exact ⟨hf.1, by omega, by omega⟩
    · simp only [if_neg hpos]
      exact ⟨hf.1, hb.1, hb.2⟩

theorem applyOp_wrappers (st : RLState) (op : RLOp)
    (h : ∀ e ∈ st.queue, ∃ j, e = JsFun.wrapper j) :
    ∀ e ∈ (applyOp st op).queue, ∃ j, e = JsFun.wrapper j := by
  have hrefill : ∀ now, ∀ e ∈ (refillTokens st now).1.queue, ∃ j, e = JsFun.wrapper j := by
    intro now e he
    unfold refillTokens at he
    by_cases hadd : 0 < tokensToAdd (now - st.lastRefill) st.timeWindowMs st.maxRequests
    · simp only [if_pos hadd] at he
      exact h e (drain_queue_mem st.queue _ e he)
    · simp only [if_neg hadd] at he
      exact h e he
  cases op with
  | refill now => exact hrefill now
  | acquire now id =>
    intro e he
    simp only [applyOp, waitForToken] at he
    by_cases hpos : 0 < (refillTokens st now).1.tokens
    · simp only [if_pos hpos] at he
      exact hrefill now e he
    · simp only [if_neg hpos] at he
      rcases List.mem_append.mp he with he' | he'
      · exact hrefill now e he'
      · exact ⟨id, by simpa using he'⟩

theorem applyOps_inv (ops : List RLOp) :
    ∀ st : RLState,
      (0 ≤ st.tokens ∧ st.tokens ≤ (st.maxRequests : Int) ∧
        (∀ e ∈ st.queue, ∃ j, e = JsFun.wrapper j)) →
      (applyOps st ops).maxRequests = st.maxRequests ∧
        0 ≤ (applyOps st ops).tokens ∧
        (applyOps st ops).tokens ≤ (st.maxRequests : Int) ∧
        (∀ e ∈ (applyOps st ops).queue, ∃ j, e = JsFun.wrapper j) := by
  induction ops with
  | nil => intro st h; exact ⟨rfl, h.1, h.2.1, h.2.2⟩
  | cons op rest ih =>
    intro st h
    have hstep := applyOp_bounds st op h.1 h.2.1
    have hw := applyOp_wrappers st op h.2.2
    have := ih (applyOp st op) ⟨hstep.2.1, by omega, hw⟩
    refine ⟨by rw [applyOps] at *; simpa [List.foldl_cons, hstep.1] using this.1, ?_, ?_, ?_⟩
    · simpa [applyOps, List.foldl_cons] using this.2.1
    · have hmr := this.1
      have := this.2.2.1
      simp only [applyOps, List.foldl_cons] at *
      omega
    · simpa [applyOps, List.foldl_cons] using this.2.2.2

end RateLimiter

/-! ## Claim C9 — limiter token bounds -/

/-- C9: for every sequence of `waitForToken` and `_refillTokens` operations
applied to a freshly constructed `RateLimiter`, the token count stays
within `0 ≤ tokens ≤ maxRequests`: consumption happens only under a
positive-count guard (the immediate path of `waitForToken` and the
queue-draining loop of `_refillTokens`), and refill clamps the count at
`maxRequests`. -/
theorem rateLimiter_tokens_within_bounds (mr tw n0 : Nat)
    (ops : List RateLimiter.RLOp) :
    0 ≤ (RateLimiter.applyOps (RateLimiter.init mr tw n0) ops).tokens ∧
      (RateLimiter.applyOps (RateLimiter.init mr tw n0) ops).tokens ≤ (mr : Int) := by
  have h := RateLimiter.applyOps_inv ops (RateLimiter.init mr tw n0)
    ⟨by simp [RateLimiter.init], by simp [RateLimiter.init], by simp [RateLimiter.init]⟩
  exact ⟨h.2.1, by have := h.2.2.1; simpa [RateLimiter.init] using this⟩

/-! ## Claim C4 — the fail-open timeout never fires -/

/-- C4: the `setTimeout` handler inside `waitForToken` searches the queue
for the bare `resolve` function (`this.queue.indexOf(resolve)`), but
`waitForToken` only ever pushes the wrapper closure
`() => { this.tokens--; resolve() }`.  In every state reachable from a
fresh limiter the queue therefore holds only wrapper closures, and on any
such queue the timeout handler finds index `-1`, removes nothing, and
never resolves the suspended caller — the fail-open bound described by the
claim (and by the code's own comments) is dead code. -/
theorem rateLimiter_timeout_never_fires :
    (∀ (mr tw n0 : Nat) (ops : List RateLimiter.RLOp),
      ∀ e ∈ (RateLimiter.applyOps (RateLimiter.init mr tw n0) ops).queue,
        ∃ j, e = JsFun.wrapper j) ∧
    (∀ (q : List JsFun) (id : Nat),
      (∀ e ∈ q, ∃ j, e = JsFun.wrapper j) →
      RateLimiter.timeoutTick q id = (q, false)) := by
  constructor
  · intro mr tw n0 ops
    exact (RateLimiter.applyOps_inv ops (RateLimiter.init mr tw n0)
      ⟨by simp [RateLimiter.init], by simp [RateLimiter.init],
        by simp [RateLimiter.init]⟩).2.2.2
  · intro q id h
    have hidx : RateLimiter.jsIndexOf q (.resolver id) = -1 := by
      induction q with
      | nil => rfl
      | cons x rest ih =>
        obtain ⟨j, rfl⟩ := h x (by simp)
        have hrest := ih (fun e he => h e (List.mem_cons_of_mem _ he))
        simp [RateLimiter.jsIndexOf, hrest]
    simp [RateLimiter.timeoutTick, hidx]

/-- Witness for C4 at a concrete reachable state: one waiter's wrapper is
queued, its timeout fires, and the handler leaves the queue unchanged
without resolving. -/
theorem rateLimiter_timeout_never_fires_witness :
    RateLimiter.timeoutTick [JsFun.wrapper 0] 0 = ([JsFun.wrapper 0], false) :=
  rateLimiter_timeout_never_fires.2 [JsFun.wrapper 0] 0
    (by intro e he; simp at he; exact ⟨0, he⟩)

/-! ## Claim C3 — refill is stepwise, not continuous -/

/-- C3 counterexample: half a window (30 s of a 60 s window, capacity 3)
after the last refill, the code's `_refillTokens` adds nothing — a bucket
with 0 tokens still has 0 — while continuous proportional accrual at rate
`capacity / windowDurationMs` would have accrued half of capacity
(`spec_proportionalTokens` = 1 whole token). -/
theorem refill_not_proportional_cex :
    (RateLimiter.refillTokens { RateLimiter.init 3 60 0 with tokens := 0 } 30000).1.tokens = 0 ∧
      RateLimiter.tokensToAdd 30000 60000 3 = 0 ∧
      spec_proportionalTokens 30000 60000 3 = 1 := by
  refine ⟨?_, by norm_num [RateLimiter.tokensToAdd], by norm_num [spec_proportionalTokens]⟩
  norm_num [RateLimiter.refillTokens, RateLimiter.tokensToAdd, RateLimiter.init]

/-- C3 amended: refill is lazy (computed inside each `waitForToken` call
from elapsed time) but stepwise, not continuous: an elapsed time shorter
than one full window adds no tokens at all, and otherwise
`floor(elapsed / windowDurationMs) * maxRequests` tokens are added, the
total clamped at `maxRequests` (stated for a limiter with no queued
waiters; queued waiters would consume freshly added tokens at once). -/
theorem refill_stepwise (st : RLState) (now : Nat) (hq : st.queue = []) :
    ((now - st.lastRefill) / st.timeWindowMs = 0 →
      (RateLimiter.refillTokens st now).1 = st) ∧
    (0 < ((now - st.lastRefill) / st.timeWindowMs) * st.maxRequests →
      (RateLimiter.refillTokens st now).1.tokens
        = min (st.maxRequests : Int)
            (st.tokens + (((now - st.lastRefill) / st.timeWindowMs) * st.maxRequests : Nat)) ∧
      (RateLimiter.refillTokens st now).1.tokens ≤ (st.maxRequests : Int)) ∧
    (∀ id, (RateLimiter.waitForToken st now id).1.tokens
        = (RateLimiter.refillTokens st now).1.tokens
          - (if 0 < (RateLimiter.refillTokens st now).1.tokens then 1 else 0)) := by
  refine ⟨?_, ?_, ?_⟩
  · intro h
    unfold RateLimiter.refillTokens
    have : RateLimiter.tokensToAdd (now - st.lastRefill) st.timeWindowMs st.maxRequests = 0 := by
      unfold RateLimiter.tokensToAdd
      rw [h]
      ring
    simp [this]
  · intro h
    have hadd : 0 < RateLimiter.tokensToAdd (now - st.lastRefill) st.timeWindowMs st.maxRequests := by
      unfold RateLimiter.tokensToAdd
      exact h
    unfold RateLimiter.refillTokens
    simp only [if_pos hadd, hq]
    constructor
    · simp [RateLimiter.drain, RateLimiter.tokensToAdd]
    · simp only [RateLimiter.drain]
      exact min_le_left _ _
  · intro id
    unfold RateLimiter.waitForToken
    by_cases hpos : 0 < (RateLimiter.refillTokens st now).1.tokens
    · simp [if_pos hpos]
    · simp [if_neg hpos]

/-- Witness for C3's amended statement: an idle limiter (capacity 3,
window 60 s, 0 tokens left, empty queue) refilled two full windows later. -/
theorem refill_stepwise_witness :
    ((120000 - ({ RateLimiter.init 3 60 0 with tokens := 0 } : RLState).lastRefill) /
        ({ RateLimiter.init 3 60 0 with tokens := 0 } : RLState).timeWindowMs = 0 →
      (RateLimiter.refillTokens { RateLimiter.init 3 60 0 with tokens := 0 } 120000).1
        = { RateLimiter.init 3 60 0 with tokens := 0 }) ∧
    (0 < ((120000 - ({ RateLimiter.init 3 60 0 with tokens := 0 } : RLState).lastRefill) /
        ({ RateLimiter.init 3 60 0 with tokens := 0 } : RLState).timeWindowMs) *
        ({ RateLimiter.init 3 60 0 with tokens := 0 } : RLState).maxRequests →
      (RateLimiter.refillTokens { RateLimiter.init 3 60 0 with tokens := 0 } 120000).1.tokens
        = min (({ RateLimiter.init 3 60 0 with tokens := 0 } : RLState).maxRequests : Int)
            (({ RateLimiter.init 3 60 0 with tokens := 0 } : RLState).tokens +
              (((120000 - ({ RateLimiter.init 3 60 0 with tokens := 0 } : RLState).lastRefill) /
                ({ RateLimiter.init 3 60 0 with tokens := 0 } : RLState).timeWindowMs) *
                ({ RateLimiter.init 3 60 0 with tokens := 0 } : RLState).maxRequests : Nat)) ∧
      (RateLimiter.refillTokens { RateLimiter.init 3 60 0 with tokens := 0 } 120000).1.tokens
        ≤ (({ RateLimiter.init 3 60 0 with tokens := 0 } : RLState).maxRequests : Int)) ∧
    (∀ id, (RateLimiter.waitForToken { RateLimiter.init 3 60 0 with tokens := 0 } 120000 id).1.tokens
        = (RateLimiter.refillTokens { RateLimiter.init 3 60 0 with tokens := 0 } 120000).1.tokens
          - (if 0 < (RateLimiter.refillTokens { RateLimiter.init 3 60 0 with tokens := 0 } 120000).1.tokens
             then 1 else 0)) :=
  refill_stepwise { RateLimiter.init 3 60 0 with tokens := 0 } 120000 rfl

/-! ## Claim C7 — the initial progress lookup failure is absorbed -/

/-- C7 counterexample: a failing initial lookup does NOT propagate — the
`catch` branch of `checkExistingDocuments` returns
`{ hasDocuments: false, lastProcessedIndex: -1 }`, indistinguishable from
an empty store, so the pipeline silently proceeds exactly as if no records
existed. -/
theorem lookup_failure_absorbed_cex :
    checkExistingDocuments (Except.error "network failure")
        = { hasDocuments := false, lastProcessedIndex := -1 } ∧
      checkExistingDocuments (Except.error "network failure")
        = checkExistingDocuments (Except.ok []) :=
  ⟨rfl, rfl⟩

/-- C7 amended: a failing initial progress lookup is absorbed, not fatal:
`checkExistingDocuments` catches the error and returns
`{ hasDocuments: false, lastProcessedIndex: -1 }`, and the pipeline run
proceeds identically to a run whose lookup saw an empty store — it
restarts from index 0 relying on the per-chunk existence checks. -/
theorem lookup_failure_absorbed (e : String) (store0 : List DocRecord)
    (chunks : List String) (oracle : Int → Option (List Nat)) :
    checkExistingDocuments (Except.error e)
        = { hasDocuments := false, lastProcessedIndex := -1 } ∧
      processTextFile (Except.error e) store0 chunks oracle
        = processTextFile (Except.ok []) store0 chunks oracle :=
  ⟨rfl, rfl⟩

/-! ## Claim C10 — store queries are blind to the source id -/

/-- Rewriting every record's `source` field, leaving everything else. -/
def setSource (f : String → String) (r : DocRecord) : DocRecord :=
  { r with metadata := { r.metadata with source := f r.metadata.source } }

theorem maxChunkIndex_setSource (f : String → String) :
    ∀ store : List DocRecord,
      maxChunkIndex (store.map (setSource f)) = maxChunkIndex store := by
  intro store
  induction store with
  | nil => rfl
  | cons r rest ih => simp [maxChunkIndex, ih, setSource]

/-- C10: the chunk existence check, the resume-cursor query, and the
completeness count are computed with no filter on the source id:
`checkExistingChunk` is true exactly when any record has the given
`chunkIndex` whatever its `source`; `getDocumentCount` counts every record
of the table; and all three queries are invariant under arbitrary
rewriting of every record's `source` field.  The pipeline's completeness
verdict compares `totalChunks` with that all-records count. -/
theorem store_queries_source_blind :
    (∀ (store : List DocRecord) (i : Int),
      checkExistingChunk store i = true ↔ ∃ r ∈ store, r.metadata.chunkIndex = i) ∧
    (∀ store : List DocRecord, getDocumentCount store = store.length) ∧
    (∀ (f : String → String) (store : List DocRecord) (i : Int),
      checkExistingChunk (store.map (setSource f)) i = checkExistingChunk store i) ∧
    (∀ (f : String → String) (store : List DocRecord),
      getDocumentCount (store.map (setSource f)) = getDocumentCount store) ∧
    (∀ (f : String → String) (store : List DocRecord),
      checkExistingDocuments (Except.ok (store.map (setSource f)))
        = checkExistingDocuments (Except.ok store)) ∧
    (∀ (lookup : Except String (List DocRecord)) (store0 : List DocRecord)
        (chunks : List String) (oracle : Int → Option (List Nat)),
      (processTextFile lookup store0 chunks oracle).isComplete
        = (getDocumentCount (processTextFile lookup store0 chunks oracle).store
            == chunks.length)) := by
  refine ⟨fun store i => checkExistingChunk_iff, fun _ => rfl, ?_, ?_, ?_, ?_⟩
  · intro f store i
    simp only [checkExistingChunk, List.any_map]
    congr 1
  · intro f store
    simp [getDocumentCount]
  · intro f store
    simp [checkExistingDocuments, maxChunkIndex_setSource]
  · intro lookup store0 chunks oracle
    rfl

/-! ## Claim C5 — retry classification, backoff, and error surfacing -/

/-- The `lastError` value after `n` consecutive rate-limited failures of
the attempts starting at index `i`. -/
def lastErrAfter (es : Nat → RLErr) (i : Nat) : Nat → Option JsError → Option JsError
  | 0, le => le
  | n + 1, _ => some (.rateLimit (es (i + n)))

/-- The delays slept for `n` consecutive rate-limited failures of the
attempts starting at index `i`. -/
def delaysFor (es : Nat → RLErr) (d i n : Nat) : List Nat :=
  (List.range n).map (fun j => backoffDelay d (i + j) (es (i + j)))

theorem delaysFor_succ (es : Nat → RLErr) (d i n : Nat) :
    delaysFor es d i (n + 1) = backoffDelay d i (es i) :: delaysFor es d (i + 1) n := by
  unfold delaysFor
  rw [List.range_succ_eq_map]
  simp only [List.map_cons, List.map_map, Nat.add_zero]
  congr 1
  apply List.map_congr_left
  intro j hj
  simp only [Function.comp]
  have h : i + (j + 1) = i + 1 + j := by omega
  rw [Nat.succ_eq_add_one, h]

theorem withRetryGo_skip_rateLimited {α : Type} (op : Nat → Outcome α)
    (es : Nat → RLErr) (d : Nat) :
    ∀ (n remaining i : Nat) (le : Option JsError) (ds : List Nat),
      n ≤ remaining →
      (∀ j, j < n → op (i + j) = .fail (.rateLimit (es (i + j)))) →
      withRetryGo op d remaining i le ds
        = withRetryGo op d (remaining - n) (i + n) (lastErrAfter es i n le)
            (ds ++ delaysFor es d i n) := by
  intro n
  induction n with
  | zero =>
    intro remaining i le ds _ _
    simp [lastErrAfter, delaysFor]
  | succ n ih =>
    intro remaining i le ds hle hfail
    obtain ⟨r, rfl⟩ : ∃ r, remaining = r + 1 := ⟨remaining - 1, by omega⟩
    have h0 : op i = .fail (.rateLimit (es i)) := by simpa using hfail 0 (by omega)
    have hstep : withRetryGo op d (r + 1) i le ds
        = withRetryGo op d r (i + 1) (some (.rateLimit (es i)))
            (ds ++ [backoffDelay d i (es i)]) := by
      rw [withRetryGo, h0]
    rw [hstep]
    rw [ih r (i + 1) (some (.rateLimit (es i))) (ds ++ [backoffDelay d i (es i)])
      (by omega)
      (fun j hj => by
        have := hfail (j + 1) (by omega)
        have harg : i + (j + 1) = i + 1 + j := by omega
        rw [harg] at this
        exact this)]
    have hlast : lastErrAfter es (i + 1) n (some (.rateLimit (es i)))
        = lastErrAfter es i (n + 1) le := by
      cases n with
      | zero => simp [lastErrAfter]
      | succ m =>
        simp only [lastErrAfter]
        have : i + 1 + m = i + (m + 1) := by omega
        rw [this]
    have hdelays : ds ++ [backoffDelay d i (es i)] ++ delaysFor es d (i + 1) n
        = ds ++ delaysFor es d i (n + 1) := by
      rw [delaysFor_succ, List.append_assoc]
      rfl
    have e1 : r - n = r + 1 - (n + 1) := by omega
    have e2 : i + 1 + n = i + (n + 1) := by omega
    rw [hlast, hdelays, e1, e2]

/-- C5: under `withRetry` (the project's retry wrapper), (a) after `n`
rate-limited failures a successful attempt returns the value, and each
rate-limited failure number `i` was followed by a sleep of the
provider-suggested wait (seconds × 1000) when present and otherwise
`initialDelay * 2^i`; (b) any non-rate-limited failure propagates
immediately with no further attempts and no sleep; (c) rate-limited
failure of every attempt exhausts `maxRetries` and surfaces the most
recent error. -/
theorem withRetry_classification {α : Type} (op : Nat → Outcome α)
    (es : Nat → RLErr) (maxRetries initialDelay : Nat) :
    (∀ (n : Nat) (v : α), n < maxRetries →
      (∀ j, j < n → op j = .fail (.rateLimit (es j))) →
      op n = .success v →
      withRetry op maxRetries initialDelay
        = (.ok v, (List.range n).map (fun j => backoffDelay initialDelay j (es j)))) ∧
    (∀ (n id : Nat), n < maxRetries →
      (∀ j, j < n → op j = .fail (.rateLimit (es j))) →
      op n = .fail (.other id) →
      withRetry op maxRetries initialDelay
        = (.error (some (.other id)),
            (List.range n).map (fun j => backoffDelay initialDelay j (es j)))) ∧
    (0 < maxRetries →
      (∀ j, j < maxRetries → op j = .fail (.rateLimit (es j))) →
      withRetry op maxRetries initialDelay
        = (.error (some (.rateLimit (es (maxRetries - 1)))),
            (List.range maxRetries).map (fun j => backoffDelay initialDelay j (es j)))) := by
  have hfor : ∀ n, (List.range n).map (fun j => backoffDelay initialDelay j (es j))
      = delaysFor es initialDelay 0 n := by
    intro n
    unfold delaysFor
    apply List.map_congr_left
    intro j _
    simp
  refine ⟨?_, ?_, ?_⟩
  · intro n v hn hfail hsucc
    unfold withRetry
    rw [withRetryGo_skip_rateLimited op es initialDelay n maxRetries 0 none []
      (by omega) (fun j hj => by simpa using hfail j hj)]
    obtain ⟨r, hr⟩ : ∃ r, maxRetries - n = r + 1 := ⟨maxRetries - n - 1, by omega⟩
    rw [hr, withRetryGo]
    have hn0 : 0 + n = n := by omega
    rw [hn0, hsucc, hfor]
    rfl
  · intro n id hn hfail hother
    unfold withRetry
    rw [withRetryGo_skip_rateLimited op es initialDelay n maxRetries 0 none []
      (by omega) (fun j hj => by simpa using hfail j hj)]
    obtain ⟨r, hr⟩ : ∃ r, maxRetries - n = r + 1 := ⟨maxRetries - n - 1, by omega⟩
    rw [hr, withRetryGo]
    have hn0 : 0 + n = n := by omega
    rw [hn0, hother, hfor]
    rfl
  · intro hpos hfail
    unfold withRetry
    rw [withRetryGo_skip_rateLimited op es initialDelay maxRetries maxRetries 0 none []
      (by omega) (fun j hj => by simpa using hfail j hj)]
    rw [Nat.sub_self, withRetryGo, hfor]
    obtain ⟨m, hm⟩ : ∃ m, maxRetries = m + 1 := ⟨maxRetries - 1, by omega⟩
    subst hm
    simp [lastErrAfter]

/-- Witness for C5 at the concrete scenarios: a rate-limited first attempt
(no provider suggestion) then success sleeps exactly `initialDelay`; an
"other" failure on attempt 0 propagates with no sleeps; three rate-limited
attempts with provider-suggested waits 20 s, 21 s, 22 s exhaust the three
retries, sleep those waits, and surface the last error. -/
theorem withRetry_classification_witness :
    withRetry (fun j => if j = 0 then .fail (.rateLimit ⟨none, 7⟩) else .success 42) 3 20000
        = (.ok 42, [20000]) ∧
      withRetry (fun _ => (.fail (.other 9) : Outcome Nat)) 3 20000
        = (.error (some (.other 9)), []) ∧
      withRetry (fun j => (.fail (.rateLimit ⟨some (20 + j), j⟩) : Outcome Nat)) 3 20000
        = (.error (some (.rateLimit ⟨some 22, 2⟩)), [20000, 21000, 22000]) := by
  refine ⟨?_, ?_, ?_⟩
  · have h := (withRetry_classification
      (fun j => if j = 0 then .fail (.rateLimit ⟨none, 7⟩) else .success 42)
      (fun _ => ⟨none, 7⟩) 3 20000).1 1 42 (by omega)
      (fun j hj => by
        have : j = 0 := by omega
        subst this
        rfl) rfl
    simpa [backoffDelay] using h
  · have h := (withRetry_classification (fun _ => (.fail (.other 9) : Outcome Nat))
      (fun _ => ⟨none, 7⟩) 3 20000).2.1 0 9 (by omega) (fun j hj => by omega) rfl
    simpa using h
  · have h := (withRetry_classification
      (fun j => (.fail (.rateLimit ⟨some (20 + j), j⟩) : Outcome Nat))
      (fun j => ⟨some (20 + j), j⟩) 3 20000).2.2 (by omega) (fun j hj => rfl)
    simpa [backoffDelay, List.range_succ] using h

/-! ## Pipeline loop lemmas -/

theorem checkExistingChunk_false_iff {store : List DocRecord} {i : Int} :
    checkExistingChunk store i = false ↔ ∀ r ∈ store, r.metadata.chunkIndex ≠ i := by
  simp [checkExistingChunk, List.any_eq_false]

theorem jsGetChunk_of_lt {chunks : List String} {i : Int}
    (h0 : 0 ≤ i) (h1 : i < (chunks.length : Int)) :
    jsGetChunk chunks i = some (chunks.getD i.toNat "") := by
  unfold jsGetChunk
  rw [if_neg (by omega)]
  have hlt : i.toNat < chunks.length := by omega
  rw [List.getD_eq_getElem?_getD, List.get?_eq_getElem?, List.getElem?_eq_getElem hlt]
  rfl

/-- At most one record per chunk index over the whole table. -/
def indexDupFree (store : List DocRecord) : Prop :=
  (store.map (fun r => r.metadata.chunkIndex)).Nodup

instance : DecidablePred indexDupFree := fun store => by
  unfold indexDupFree
  infer_instance

theorem processChunkStep_indexDupFree (lpi : Int) (total : Nat)
    (oracle : Int → Option (List Nat)) (chunks : List String)
    (s : LoopState) (i : Int) (h : indexDupFree s.store) :
    indexDupFree (processChunkStep lpi total oracle chunks s i).store := by
  unfold processChunkStep
  by_cases hex : checkExistingChunk s.store i = true
  · simp only [hex, if_true]
    exact h
  · have hex' : checkExistingChunk s.store i = false := by
      cases hc : checkExistingChunk s.store i
      · rfl
      · exact absurd hc hex
    simp only [hex', Bool.false_eq_true, if_false]
    cases hg : jsGetChunk chunks i with
    | none => exact h
    | some content =>
      cases ho : oracle i with
      | none => exact h
      | some emb =>
        show indexDupFree (insertChunk s.store content emb i)
        unfold indexDupFree insertChunk at *
        rw [List.map_append, List.nodup_append]
        refine ⟨h, List.nodup_singleton _, ?_⟩
        intro a ha hb
        simp only [List.map_cons, List.map_nil, List.mem_singleton] at hb
        rw [checkExistingChunk_false_iff] at hex'
        rw [List.mem_map] at ha
        obtain ⟨r, hr, hri⟩ := ha
        exact hex' r hr (by rw [hri, hb])

theorem runLoop_indexDupFree (lpi : Int) (total : Nat)
    (oracle : Int → Option (List Nat)) (chunks : List String) :
    ∀ (is : List Int) (s : LoopState), indexDupFree s.store →
      indexDupFree (runLoop lpi total oracle chunks is s).store := by
  intro is
  induction is with
  | nil => intro s h; exact h
  | cons i rest ih =>
    intro s h
    exact ih _ (processChunkStep_indexDupFree lpi total oracle chunks s i h)

theorem countP_index_le_one {store : List DocRecord}
    (h : indexDupFree store) (i : Int) :
    store.countP (fun r => r.metadata.chunkIndex == i) ≤ 1 := by
  unfold indexDupFree at h
  induction store with
  | nil => simp
  | cons r rest ih =>
    rw [List.map_cons, List.nodup_cons] at h
    rw [List.countP_cons]
    by_cases hri : r.metadata.chunkIndex = i
    · have hz : rest.countP (fun r' => r'.metadata.chunkIndex == i) = 0 := by
        rw [List.countP_eq_zero]
        intro a ha
        simp only [beq_iff_eq]
        intro hai
        exact h.1 (List.mem_map.mpr ⟨a, ha, by omega⟩)
      simp [hz, hri]
    · have hp : (r.metadata.chunkIndex == i) = false := by
        simp [hri]
      rw [hp]
      simpa using ih h.2

/-! ## Claim C2 — no duplicate commits -/

theorem processChunkStepQ_no_failure (lpi : Int) (total : Nat)
    (checkFail : Int → Bool) (oracle : Int → Option (List Nat))
    (chunks : List String) (s : LoopState) (i : Int)
    (h : checkFail i = false) :
    processChunkStepQ lpi total checkFail oracle chunks s i
      = processChunkStep lpi total oracle chunks s i := by
  unfold processChunkStepQ processChunkStep checkExistingChunkData
  rw [h]
  simp

theorem runLoopQ_no_failure (lpi : Int) (total : Nat) (checkFail : Int → Bool)
    (oracle : Int → Option (List Nat)) (chunks : List String) :
    ∀ (is : List Int) (s : LoopState),
      (∀ i ∈ is, checkFail i = false) →
      runLoopQ lpi total checkFail oracle chunks is s
        = runLoop lpi total oracle chunks is s := by
  intro is
  induction is with
  | nil => intro s _; rfl
  | cons i rest ih =>
    intro s h
    rw [runLoopQ, runLoop,
      processChunkStepQ_no_failure lpi total checkFail oracle chunks s i (h i (by simp))]
    exact ih _ (fun j hj => h j (by simp [hj]))

theorem processTextFileQ_no_failure (lookup : Except String (List DocRecord))
    (store0 : List DocRecord) (chunks : List String)
    (oracle : Int → Option (List Nat)) :
    processTextFileQ lookup (fun _ => false) store0 chunks oracle
      = processTextFile lookup store0 chunks oracle := by
  simp only [processTextFileQ, processTextFile]
  rw [runLoopQ_no_failure _ _ _ _ _ _ _ (fun _ _ => rfl)]

/-- C2 counterexample: a reachable interrupted-and-resumed scenario with
more than one record for the pair `(sourceId, 0)`.  A first run committed
chunk 0 and was interrupted.  On resume, the initial progress lookup fails
and is absorbed (the C7 behaviour), so the loop restarts at index 0; the
per-chunk existence query for index 0 then also fails, and because the
call site destructures only `data` and discards `error`, the failure reads
as "chunk absent" — the run embeds and inserts chunk 0 a second time.  The
final store holds two records with source `scrimba-info.txt` and
`chunkIndex` 0: the pre-insert existence check fails to maintain the
invariant when its query fails. -/
theorem duplicate_commit_cex :
    (processTextFileQ (.error "network failure") (fun i => i == 0)
        [mkRecord "a" [7] 0] ["a"] (fun _ => some [7])).store
      = [mkRecord "a" [7] 0, mkRecord "a" [7] 0] ∧
      ((processTextFileQ (.error "network failure") (fun i => i == 0)
          [mkRecord "a" [7] 0] ["a"] (fun _ => some [7])).store.countP
        (fun r => r.metadata.source == "scrimba-info.txt"
          && r.metadata.chunkIndex == 0)) = 2 := by
  constructor
  · rfl
  · rfl

/-- C2 amended: (a) a run of the ingestion loop — over any index list,
hence any interrupted or resumed schedule — preserves the
at-most-one-record-per-chunk-index invariant PROVIDED every pre-insert
existence query it issues succeeds; a silently failing query (the call
site discards `error`) can instead insert a duplicate, as
`duplicate_commit_cex` shows; (b) under the invariant at most one record
exists per `(sourceId, chunkIndex)` pair; (c) the storage layer itself
enforces nothing: `insertChunk` appends unconditionally even when a record
with the same index is present, so the pre-insert existence check inside
the loop is the only mechanism maintaining the invariant. -/
theorem no_duplicate_commits :
    (∀ (lpi : Int) (total : Nat) (checkFail : Int → Bool)
        (oracle : Int → Option (List Nat)) (chunks : List String)
        (is : List Int) (s : LoopState),
      (∀ i ∈ is, checkFail i = false) →
      indexDupFree s.store →
      indexDupFree (runLoopQ lpi total checkFail oracle chunks is s).store) ∧
    (∀ store : List DocRecord, indexDupFree store →
      ∀ (src : String) (i : Int),
        store.countP
          (fun r => r.metadata.source == src && r.metadata.chunkIndex == i) ≤ 1) ∧
    (∀ (store : List DocRecord) (c : String) (e : List Nat) (i : Int),
      (insertChunk store c e i).length = store.length + 1) := by
  refine ⟨?_, ?_, ?_⟩
  · intro lpi total checkFail oracle chunks is s hok h
    rw [runLoopQ_no_failure lpi total checkFail oracle chunks is s hok]
    exact runLoop_indexDupFree lpi total oracle chunks is s h
  · intro store h src i
    calc store.countP (fun r => r.metadata.source == src && r.metadata.chunkIndex == i)
        ≤ store.countP (fun r => r.metadata.chunkIndex == i) := by
          apply List.countP_mono_left
          intro r _ hp
          exact (Bool.and_eq_true_iff.mp hp).2
      _ ≤ 1 := countP_index_le_one h i
  · intro store c e i
    simp [insertChunk]

/-- Witness for C2's amended statement: a resumed run over a store already
holding records for chunk indices 0 and 2 (one of them under a foreign
source id), with every existence query succeeding, stays duplicate free;
the pair count is bounded; and the raw insert appends blindly. -/
theorem no_duplicate_commits_witness :
    indexDupFree (runLoopQ (-1) 3 (fun _ => false) (fun _ => some [1])
      ["a", "b", "c"] [0, 1, 2]
      { store := [mkRecord "a" [1] 0,
                  { content := "z",
                    metadata := { source := "other.txt", chunkIndex := 2, length := 1 },
                    embedding := [9] }],
        processedCount := 0, events := [] }).store ∧
      ([mkRecord "a" [1] 0].countP
        (fun r => r.metadata.source == "scrimba-info.txt" && r.metadata.chunkIndex == 0) ≤ 1) ∧
      (insertChunk [mkRecord "a" [1] 0] "a" [1] 0).length = 1 + 1 :=
  ⟨no_duplicate_commits.1 (-1) 3 (fun _ => false) (fun _ => some [1]) ["a", "b", "c"]
      [0, 1, 2] _ (fun i _ => rfl) (by decide),
   no_duplicate_commits.2.1 [mkRecord "a" [1] 0] (by decide) "scrimba-info.txt" 0,
   no_duplicate_commits.2.2 [mkRecord "a" [1] 0] "a" [1] 0⟩

/-! ## Claim C6 — per-chunk failure isolation -/

theorem runLoop_hasIndex_mono (lpi : Int) (total : Nat)
    (oracle : Int → Option (List Nat)) (chunks : List String) :
    ∀ (is : List Int) (s : LoopState) (j : Int),
      checkExistingChunk (runLoop lpi total oracle chunks is s).store j = true →
      checkExistingChunk s.store j = true ∨ j ∈ is := by
  intro is
  induction is with
  | nil => intro s j h; exact Or.inl h
  | cons i rest ih =>
    intro s j h
    rcases ih (processChunkStep lpi total oracle chunks s i) j h with h' | h'
    · unfold processChunkStep at h'
      by_cases hex : checkExistingChunk s.store i = true
      · simp only [hex, if_true] at h'
        exact Or.inl h'
      · have hex' : checkExistingChunk s.store i = false := by
          cases hc : checkExistingChunk s.store i
          · rfl
          · exact absurd hc hex
        simp only [hex', Bool.false_eq_true, if_false] at h'
        cases hg : jsGetChunk chunks i with
        | none => rw [hg] at h'; exact Or.inl h'
        | some content =>
          rw [hg] at h'
          cases ho : oracle i with
          | none => rw [ho] at h'; exact Or.inl h'
          | some emb =>
            rw [ho] at h'
            simp only at h'
            rw [checkExistingChunk_insert] at h'
            rcases Bool.or_eq_true_iff.mp h' with h'' | h''
            · exact Or.inl h''
            · exact Or.inr (by simp [List.mem_cons, beq_iff_eq.mp h''])
    · exact Or.inr (List.mem_cons_of_mem i h')

/-- C6: when chunk `i` is not yet committed and its embedding or insert
fails after retries (`oracle i = none`), the loop iteration for `i`
changes nothing — no commit, no count, no event — and the run continues
with the remaining indices exactly as if `i` had not been scheduled;
afterwards `i` is still absent from the store (provided the remaining
indices do not contain `i`), so a future resumed run remains able to pick
it up. -/
theorem chunk_failure_isolated (lpi : Int) (total : Nat)
    (oracle : Int → Option (List Nat)) (chunks : List String)
    (i : Int) (rest : List Int) (s : LoopState)
    (hfail : oracle i = none)
    (hfresh : checkExistingChunk s.store i = false)
    (hnotin : i ∉ rest) :
    runLoop lpi total oracle chunks (i :: rest) s
        = runLoop lpi total oracle chunks rest s ∧
      checkExistingChunk (runLoop lpi total oracle chunks rest s).store i = false := by
  have hstep : processChunkStep lpi total oracle chunks s i = s := by
    unfold processChunkStep
    rw [if_neg (by simp [hfresh])]
    cases hg : jsGetChunk chunks i with
    | none => rfl
    | some content => rw [hfail]
  constructor
  · show runLoop lpi total oracle chunks rest (processChunkStep lpi total oracle chunks s i)
        = runLoop lpi total oracle chunks rest s
    rw [hstep]
  · cases hc : checkExistingChunk (runLoop lpi total oracle chunks rest s).store i
    · rfl
    · rcases runLoop_hasIndex_mono lpi total oracle chunks rest s i hc with h' | h'
      · rw [hfresh] at h'
        exact absurd h' (by simp)
      · exact absurd h' hnotin

/-- Witness for C6: chunk 0 of a fresh two-chunk run fails after retries;
the run is unaffected by its presence in the schedule and chunk 0 stays
uncommitted while chunk 1 is processed. -/
theorem chunk_failure_isolated_witness :
    runLoop (-1) 2 (fun i => if i = 0 then none else some [5]) ["a", "b"] [0, 1]
        { store := [], processedCount := 0, events := [] }
      = runLoop (-1) 2 (fun i => if i = 0 then none else some [5]) ["a", "b"] [1]
        { store := [], processedCount := 0, events := [] } ∧
    checkExistingChunk (runLoop (-1) 2 (fun i => if i = 0 then none else some [5])
        ["a", "b"] [1] { store := [], processedCount := 0, events := [] }).store 0 = false :=
  chunk_failure_isolated (-1) 2 (fun i => if i = 0 then none else some [5]) ["a", "b"]
    0 [1] { store := [], processedCount := 0, events := [] } rfl rfl (by decide)

/-! ## Claim C1 — idempotent resumption -/

theorem runLoop_fresh_success (lpi : Int) (total : Nat) (embFn : Int → List Nat)
    (chunks : List String) :
    ∀ (is : List Int) (s : LoopState),
      is.Nodup →
      (∀ i ∈ is, checkExistingChunk s.store i = false) →
      (∀ i ∈ is, 0 ≤ i ∧ i < (chunks.length : Int)) →
      (runLoop lpi total (fun i => some (embFn i)) chunks is s).store
        = s.store ++ is.map (fun i => mkRecord (chunks.getD i.toNat "") (embFn i) i) := by
  intro is
  induction is with
  | nil => intro s _ _ _; simp [runLoop]
  | cons i rest ih =>
    intro s hnd hfresh hrange
    have hf : checkExistingChunk s.store i = false := hfresh i (by simp)
    have hr := hrange i (by simp)
    have hg := jsGetChunk_of_lt hr.1 hr.2
    have hstep : processChunkStep lpi total (fun j => some (embFn j)) chunks s i
        = { store := insertChunk s.store (chunks.getD i.toNat "") (embFn i) i,
            processedCount := s.processedCount + 1,
            events := s.events ++ [{ current := s.processedCount + 1, total := total,
                                     resuming := decide (0 ≤ lpi) }] } := by
      unfold processChunkStep
      rw [if_neg (by simp [hf]), hg]
    rw [runLoop, hstep]
    rw [ih _ hnd.of_cons ?_ ?_]
    · simp only [List.map_cons]
      rw [insertChunk]
      rw [List.append_assoc]
      rfl
    · intro j hj
      rw [checkExistingChunk_insert]
      have hfj : checkExistingChunk s.store j = false := hfresh j (by simp [hj])
      have hij : (i == j) = false := by
        have : i ≠ j := by
          intro heq
          exact (List.nodup_cons.mp hnd).1 (heq ▸ hj)
        simp [this]
      rw [hfj, hij]
      rfl
    · intro j hj
      exact hrange j (by simp [hj])

/-- The resume cursor computed by `checkExistingDocuments` on a store whose
chunk indices are exactly `0 .. k` (with `k = -1` meaning none). -/
theorem cursor_of_exact (store : List DocRecord) (k : Int)
    (h1 : ∀ i : Int, checkExistingChunk store i = true ↔ (0 ≤ i ∧ i ≤ k))
    (hk : -1 ≤ k) :
    (checkExistingDocuments (.ok store)).lastProcessedIndex = k := by
  by_cases hk0 : 0 ≤ k
  · have hmemk : ∃ r ∈ store, r.metadata.chunkIndex = k := by
      have := (h1 k).mpr ⟨hk0, le_refl k⟩
      exact checkExistingChunk_iff.mp this
    have hle : ∀ r ∈ store, r.metadata.chunkIndex ≤ k := by
      intro r hr
      have : checkExistingChunk store r.metadata.chunkIndex = true :=
        checkExistingChunk_iff.mpr ⟨r, hr, rfl⟩
      rw [h1] at this
      omega
    have hmax := maxChunkIndex_eq_some hmemk hle
    simp [checkExistingDocuments, hmax]
  · have hkm : k = -1 := by omega
    have hnil : store = [] := by
      cases hs : store with
      | nil => rfl
      | cons r rest =>
        exfalso
        have : checkExistingChunk store r.metadata.chunkIndex = true := by
          rw [hs]
          exact checkExistingChunk_iff.mpr ⟨r, by simp, rfl⟩
        rw [h1] at this
        omega
    rw [hnil, hkm]
    rfl

theorem processTextFile_store_of_cursor (store0 : List DocRecord)
    (chunks : List String) (embFn : Int → List Nat) (k : Int)
    (h1 : ∀ i : Int, checkExistingChunk store0 i = true ↔ (0 ≤ i ∧ i ≤ k))
    (hk : -1 ≤ k) :
    (processTextFile (.ok store0) store0 chunks (fun i => some (embFn i))).store
      = store0 ++ (intRange (k + 1) (chunks.length : Int)).map
          (fun i => mkRecord (chunks.getD i.toNat "") (embFn i) i) := by
  have hlpi := cursor_of_exact store0 k h1 hk
  simp only [processTextFile, hlpi]
  rw [runLoop_fresh_success k chunks.length embFn chunks
    (intRange (k + 1) (chunks.length : Int)) _ (intRange_nodup _ _) ?_ ?_]
  · intro i hi
    rw [mem_intRange] at hi
    cases hc : checkExistingChunk store0 i
    · rfl
    · rw [h1] at hc
      omega
  · intro i hi
    rw [mem_intRange] at hi
    exact ⟨by omega, hi.2⟩

theorem processTextFile_isComplete_eq (lookup : Except String (List DocRecord))
    (store0 : List DocRecord) (chunks : List String)
    (oracle : Int → Option (List Nat)) :
    (processTextFile lookup store0 chunks oracle).isComplete
      = ((processTextFile lookup store0 chunks oracle).store.length == chunks.length) :=
  rfl

/-- C1: on a store holding exactly the records for chunk indices `0 .. k`
(one each), a run with every embedding succeeding commits records exactly
for the indices `k+1 .. totalChunks-1`, in order; a second run against the
resulting store (same chunks, same embeddings) commits nothing new and
reports complete. -/
theorem pipeline_idempotent_resumption
    (chunks : List String) (embFn : Int → List Nat)
    (store0 : List DocRecord) (k : Int)
    (h1 : ∀ i : Int, checkExistingChunk store0 i = true ↔ (0 ≤ i ∧ i ≤ k))
    (hk : -1 ≤ k) (hkt : k < (chunks.length : Int))
    (hlen : store0.length = (k + 1).toNat) :
    ((processTextFile (.ok store0) store0 chunks (fun i => some (embFn i))).store
        = store0 ++ (intRange (k + 1) (chunks.length : Int)).map
            (fun i => mkRecord (chunks.getD i.toNat "") (embFn i) i)) ∧
    ((processTextFile
        (.ok (processTextFile (.ok store0) store0 chunks (fun i => some (embFn i))).store)
        (processTextFile (.ok store0) store0 chunks (fun i => some (embFn i))).store
        chunks (fun i => some (embFn i))).store
      = (processTextFile (.ok store0) store0 chunks (fun i => some (embFn i))).store) ∧
    ((processTextFile
        (.ok (processTextFile (.ok store0) store0 chunks (fun i => some (embFn i))).store)
        (processTextFile (.ok store0) store0 chunks (fun i => some (embFn i))).store
        chunks (fun i => some (embFn i))).isComplete = true) := by
  have hrun1 := processTextFile_store_of_cursor store0 chunks embFn k h1 hk
  have hidx : ∀ i : Int,
      checkExistingChunk
        (processTextFile (.ok store0) store0 chunks (fun j => some (embFn j))).store i = true
      ↔ (0 ≤ i ∧ i ≤ (chunks.length : Int) - 1) := by
    intro i
    rw [hrun1, checkExistingChunk_append, Bool.or_eq_true_iff, h1]
    constructor
    · rintro (⟨h0, hik⟩ | hnew)
      · omega
      · rw [checkExistingChunk_iff] at hnew
        obtain ⟨r, hr, hri⟩ := hnew
        rw [List.mem_map] at hr
        obtain ⟨j, hj, rfl⟩ := hr
        rw [mem_intRange] at hj
        have : j = i := hri
        omega
    · intro ⟨h0, hlt⟩
      by_cases hik : i ≤ k
      · exact Or.inl ⟨h0, hik⟩
      · right
        rw [checkExistingChunk_iff]
        exact ⟨mkRecord (chunks.getD i.toNat "") (embFn i) i,
          List.mem_map.mpr ⟨i, mem_intRange.mpr ⟨by omega, by omega⟩, rfl⟩, rfl⟩
  have hlen1 : (processTextFile (.ok store0) store0 chunks
      (fun j => some (embFn j))).store.length = chunks.length := by
    rw [hrun1, List.length_append, List.length_map, intRange_length, hlen]
    omega
  have hrun2 := processTextFile_store_of_cursor
    (processTextFile (.ok store0) store0 chunks (fun j => some (embFn j))).store
    chunks embFn ((chunks.length : Int) - 1) hidx (by omega)
  have hempty : intRange ((chunks.length : Int) - 1 + 1) (chunks.length : Int) = [] :=
    intRange_empty (by omega)
  rw [hempty] at hrun2
  simp only [List.map_nil, List.append_nil] at hrun2
  refine ⟨hrun1, hrun2, ?_⟩
  rw [processTextFile_isComplete_eq, hrun2, hlen1]
  simp

/-- Witness for C1: a store already holding chunk 0 of a three-chunk
document; the run commits exactly chunks 1 and 2 and the second run is a
no-op reporting complete. -/
theorem pipeline_idempotent_resumption_witness :
    ((processTextFile (.ok [mkRecord "a" [3] 0]) [mkRecord "a" [3] 0] ["a", "b", "c"]
        (fun _ => some [7])).store
      = [mkRecord "a" [3] 0] ++ (intRange (0 + 1) ((["a", "b", "c"].length : Nat) : Int)).map
          (fun i => mkRecord (["a", "b", "c"].getD i.toNat "") [7] i)) ∧
    ((processTextFile
        (.ok (processTextFile (.ok [mkRecord "a" [3] 0]) [mkRecord "a" [3] 0] ["a", "b", "c"]
          (fun _ => some [7])).store)
        (processTextFile (.ok [mkRecord "a" [3] 0]) [mkRecord "a" [3] 0] ["a", "b", "c"]
          (fun _ => some [7])).store
        ["a", "b", "c"] (fun _ => some [7])).store
      = (processTextFile (.ok [mkRecord "a" [3] 0]) [mkRecord "a" [3] 0] ["a", "b", "c"]
          (fun _ => some [7])).store) ∧
    ((processTextFile
        (.ok (processTextFile (.ok [mkRecord "a" [3] 0]) [mkRecord "a" [3] 0] ["a", "b", "c"]
          (fun _ => some [7])).store)
        (processTextFile (.ok [mkRecord "a" [3] 0]) [mkRecord "a" [3] 0] ["a", "b", "c"]
          (fun _ => some [7])).store
        ["a", "b", "c"] (fun _ => some [7])).isComplete = true) :=
  pipeline_idempotent_resumption ["a", "b", "c"]
    (fun _ => [7]) [mkRecord "a" [3] 0] 0
    (by
      intro i
      simp only [checkExistingChunk, List.any_cons, List.any_nil, Bool.or_false,
        mkRecord, beq_iff_eq]
      omega)
    (by decide) (by decide) rfl

/-! ## Claim C8 — progress notifications -/

/-- The `processingUpdate` event payload `{ current, total, resuming }`. -/
def mkEvent (pc : Int) (total : Nat) (resuming : Bool) : ProgressEvent :=
  { current := pc, total := total, resuming := resuming }

theorem mem_of_getLast_mem {α : Type} {l : List α} {x : α} (h : x ∈ l.getLast?) :
    x ∈ l := by
  obtain ⟨hne, rfl⟩ := List.mem_getLast?_eq_getLast h
  exact List.getLast_mem hne

/-- The three possible shapes of one loop iteration, seen through the
`processedCount`/`events` fields. -/
theorem processChunkStep_cases (lpi : Int) (total : Nat)
    (oracle : Int → Option (List Nat)) (chunks : List String)
    (s : LoopState) (i : Int) :
    processChunkStep lpi total oracle chunks s i = s ∨
      processChunkStep lpi total oracle chunks s i
        = { s with processedCount := s.processedCount + 1 } ∨
      processChunkStep lpi total oracle chunks s i
        = { store := insertChunk s.store ((jsGetChunk chunks i).getD "")
              ((oracle i).getD []) i,
            processedCount := s.processedCount + 1,
            events := s.events
              ++ [mkEvent (s.processedCount + 1) total (decide (0 ≤ lpi))] } := by
  unfold processChunkStep
  by_cases hex : checkExistingChunk s.store i = true
  · rw [if_pos hex]
    exact Or.inr (Or.inl rfl)
  · rw [if_neg (by simp [hex])]
    cases hg : jsGetChunk chunks i with
    | none => exact Or.inl rfl
    | some content =>
      cases ho : oracle i with
      | none => exact Or.inl rfl
      | some emb => exact Or.inr (Or.inr rfl)

theorem processChunkStep_pc_le (lpi : Int) (total : Nat)
    (oracle : Int → Option (List Nat)) (chunks : List String)
    (s : LoopState) (i : Int) :
    s.processedCount ≤ (processChunkStep lpi total oracle chunks s i).processedCount ∧
      (processChunkStep lpi total oracle chunks s i).processedCount
        ≤ s.processedCount + 1 := by
  rcases processChunkStep_cases lpi total oracle chunks s i with h | h | h <;> rw [h]
  · exact ⟨le_refl _, by omega⟩
  · exact ⟨by show s.processedCount ≤ s.processedCount + 1; omega,
      by show s.processedCount + 1 ≤ s.processedCount + 1; omega⟩
  · exact ⟨by show s.processedCount ≤ s.processedCount + 1; omega,
      by show s.processedCount + 1 ≤ s.processedCount + 1; omega⟩

theorem runLoop_pc_le (lpi : Int) (total : Nat) (oracle : Int → Option (List Nat))
    (chunks : List String) :
    ∀ (is : List Int) (s : LoopState),
      (runLoop lpi total oracle chunks is s).processedCount
        ≤ s.processedCount + (is.length : Int) := by
  intro is
  induction is with
  | nil => intro s; simp [runLoop]
  | cons i rest ih =>
    intro s
    rw [runLoop]
    have h := ih (processChunkStep lpi total oracle chunks s i)
    have hstep := (processChunkStep_pc_le lpi total oracle chunks s i).2
    simp only [List.length_cons]
    push_cast
    omega

/-- One loop iteration preserves the events invariant: the emitted currents
remain a non-decreasing chain, each bounded by the running count. -/
theorem processChunkStep_events_invariant (lpi : Int) (total : Nat)
    (oracle : Int → Option (List Nat)) (chunks : List String)
    (s : LoopState) (i : Int)
    (h1 : List.Chain' (· ≤ ·) (s.events.map (fun ev => ev.current)))
    (h2 : ∀ ev ∈ s.events, ev.current ≤ s.processedCount) :
    List.Chain' (· ≤ ·)
        ((processChunkStep lpi total oracle chunks s i).events.map (fun ev => ev.current)) ∧
      ∀ ev ∈ (processChunkStep lpi total oracle chunks s i).events,
        ev.current ≤ (processChunkStep lpi total oracle chunks s i).processedCount := by
  rcases processChunkStep_cases lpi total oracle chunks s i with h | h | h <;> rw [h]
  · exact ⟨h1, h2⟩
  · refine ⟨h1, ?_⟩
    intro ev hev
    have := h2 ev hev
    show ev.current ≤ s.processedCount + 1
    omega
  · constructor
    · show List.Chain' (· ≤ ·)
        ((s.events ++ [mkEvent (s.processedCount + 1) total (decide (0 ≤ lpi))]).map
          (fun ev => ev.current))
      rw [List.map_append]
      refine List.Chain'.append h1 (by simp) ?_
      intro x hx y hy
      simp only [List.map_cons, List.map_nil, List.head?_cons,
        Option.mem_def, Option.some.injEq] at hy
      have hy' : s.processedCount + 1 = y := hy
      have hx' := mem_of_getLast_mem hx
      rw [List.mem_map] at hx'
      obtain ⟨ev, hev, heq⟩ := hx'
      have := h2 ev hev
      omega
    · intro ev hev
      show ev.current ≤ s.processedCount + 1
      rcases List.mem_append.mp hev with hev' | hev'
      · have := h2 ev hev'
        omega
      · rw [List.mem_singleton] at hev'
        rw [hev']
        show s.processedCount + 1 ≤ s.processedCount + 1
        omega

theorem runLoop_events_invariant (lpi : Int) (total : Nat)
    (oracle : Int → Option (List Nat)) (chunks : List String) :
    ∀ (is : List Int) (s : LoopState),
      List.Chain' (· ≤ ·) (s.events.map (fun ev => ev.current)) →
      (∀ ev ∈ s.events, ev.current ≤ s.processedCount) →
      List.Chain' (· ≤ ·)
          ((runLoop lpi total oracle chunks is s).events.map (fun ev => ev.current)) ∧
        (∀ ev ∈ (runLoop lpi total oracle chunks is s).events,
          ev.current ≤ (runLoop lpi total oracle chunks is s).processedCount) ∧
        s.processedCount ≤ (runLoop lpi total oracle chunks is s).processedCount := by
  intro is
  induction is with
  | nil => intro s h1 h2; exact ⟨h1, h2, le_refl _⟩
  | cons i rest ih =>
    intro s h1 h2
    rw [runLoop]
    have hstep := processChunkStep_events_invariant lpi total oracle chunks s i h1 h2
    have hpc := (processChunkStep_pc_le lpi total oracle chunks s i).1
    have := ih (processChunkStep lpi total oracle chunks s i) hstep.1 hstep.2
    exact ⟨this.1, this.2.1, le_trans hpc this.2.2⟩

theorem runLoop_events_store_count (lpi : Int) (total : Nat)
    (oracle : Int → Option (List Nat)) (chunks : List String) :
    ∀ (is : List Int) (s : LoopState),
      (runLoop lpi total oracle chunks is s).events.length + s.store.length
        = s.events.length + (runLoop lpi total oracle chunks is s).store.length := by
  intro is
  induction is with
  | nil => intro s; rfl
  | cons i rest ih =>
    intro s
    rw [runLoop]
    rcases processChunkStep_cases lpi total oracle chunks s i with hc | hc | hc <;> rw [hc]
    · exact ih s
    · exact ih _
    · have h := ih (processChunkStep lpi total oracle chunks s i)
      rw [hc] at h
      simp only [List.length_append, List.length_cons, List.length_nil,
        insertChunk] at h ⊢
      omega

/-- C8 counterexample: a fresh two-chunk run in which chunk 0 fails after
retries and chunk 1 commits.  Both loop indices (`intRange 0 2 = [0, 1]`)
resolve, yet only two events are dispatched — the initial one and the one
after chunk 1's commit; the skipped index 0 emits nothing, contradicting
"after each index resolves — whether it was committed or skipped — a
progress notification is emitted" (which would require three). -/
theorem progress_event_skipped_cex :
    (processTextFile (.ok []) [] ["a", "b"]
        (fun i => if i = 0 then none else some [5])).events
      = [mkEvent 0 2 false, mkEvent 1 2 false] ∧
      intRange (-1 + 1) ((2 : Nat) : Int) = [0, 1] := by
  constructor
  · rfl
  · rfl

theorem runLoop_progress_props (L : Int) (total : Nat)
    (oracle : Int → Option (List Nat)) (chunks : List String)
    (store0 : List DocRecord) (pc0 : Int) (r : Bool)
    (hsum : pc0 + ((((total : Int) - (L + 1)).toNat : Nat) : Int) ≤ (total : Int)) :
    List.Chain' (· ≤ ·)
        ((runLoop L total oracle chunks (intRange (L + 1) (total : Int))
          ⟨store0, pc0, [mkEvent pc0 total r]⟩).events.map (fun ev => ev.current)) ∧
      (∀ ev ∈ (runLoop L total oracle chunks (intRange (L + 1) (total : Int))
          ⟨store0, pc0, [mkEvent pc0 total r]⟩).events, ev.current ≤ (total : Int)) ∧
      ((runLoop L total oracle chunks (intRange (L + 1) (total : Int))
          ⟨store0, pc0, [mkEvent pc0 total r]⟩).events.length + store0.length
        = 1 + (runLoop L total oracle chunks (intRange (L + 1) (total : Int))
            ⟨store0, pc0, [mkEvent pc0 total r]⟩).store.length) := by
  have h1 : List.Chain' (· ≤ ·)
      (([mkEvent pc0 total r] : List ProgressEvent).map (fun ev => ev.current)) := by
    simp
  have h2 : ∀ ev ∈ ([mkEvent pc0 total r] : List ProgressEvent), ev.current ≤ pc0 := by
    intro ev hev
    rw [List.mem_singleton] at hev
    rw [hev]
    exact le_refl _
  have hinv := runLoop_events_invariant L total oracle chunks
    (intRange (L + 1) (total : Int)) ⟨store0, pc0, [mkEvent pc0 total r]⟩ h1 h2
  have hple := runLoop_pc_le L total oracle chunks
    (intRange (L + 1) (total : Int)) ⟨store0, pc0, [mkEvent pc0 total r]⟩
  rw [intRange_length] at hple
  have hple' : (runLoop L total oracle chunks (intRange (L + 1) (total : Int))
      ⟨store0, pc0, [mkEvent pc0 total r]⟩).processedCount
        ≤ pc0 + ((((total : Int) - (L + 1)).toNat : Nat) : Int) := hple
  have hcnt : (runLoop L total oracle chunks (intRange (L + 1) (total : Int))
      ⟨store0, pc0, [mkEvent pc0 total r]⟩).events.length + store0.length
        = 1 + (runLoop L total oracle chunks (intRange (L + 1) (total : Int))
            ⟨store0, pc0, [mkEvent pc0 total r]⟩).store.length :=
    runLoop_events_store_count L total oracle chunks
      (intRange (L + 1) (total : Int)) ⟨store0, pc0, [mkEvent pc0 total r]⟩
  refine ⟨hinv.1, ?_, hcnt⟩
  intro ev hev
  have hb := hinv.2.1 ev hev
  omega

/-- C8 amended: within one run of `processTextFile`, notifications are
emitted only for the initial state and after each successful commit —
a skipped index (already existing, or failed after retries) emits nothing,
so the run produces `1 + (number of committed chunks)` events rather than
one per index.  The emitted `current` values are still non-decreasing, and
every emitted `current` (the final one included) is ≤ `total`, provided
the resume cursor lies in `[-1, totalChunks)`. -/
theorem progress_events_monotone (lookup : Except String (List DocRecord))
    (store0 : List DocRecord) (chunks : List String)
    (oracle : Int → Option (List Nat))
    (hge : -1 ≤ (checkExistingDocuments lookup).lastProcessedIndex)
    (hlt : (checkExistingDocuments lookup).lastProcessedIndex < (chunks.length : Int)) :
    List.Chain' (· ≤ ·)
        ((processTextFile lookup store0 chunks oracle).events.map (fun ev => ev.current)) ∧
      (∀ ev ∈ (processTextFile lookup store0 chunks oracle).events,
        ev.current ≤ (chunks.length : Int)) ∧
      ((processTextFile lookup store0 chunks oracle).events.length + store0.length
        = 1 + (processTextFile lookup store0 chunks oracle).store.length) := by
  have key := runLoop_progress_props (checkExistingDocuments lookup).lastProcessedIndex
    chunks.length oracle chunks store0
    (if 0 ≤ (checkExistingDocuments lookup).lastProcessedIndex
      then (checkExistingDocuments lookup).lastProcessedIndex + 1 else 0)
    (decide (0 ≤ (checkExistingDocuments lookup).lastProcessedIndex))
    (by
      by_cases h0 : 0 ≤ (checkExistingDocuments lookup).lastProcessedIndex
      · rw [if_pos h0]
        omega
      · rw [if_neg h0]
        omega)
  exact key

/-- Witness for C8's amended statement: the counterexample run itself —
one failed chunk, one committed chunk — has non-decreasing currents, all
bounded by the total, and exactly `1 + commits` events. -/
theorem progress_events_monotone_witness :
    List.Chain' (· ≤ ·)
        ((processTextFile (.ok []) [] ["a", "b"]
          (fun i => if i = 0 then none else some [5])).events.map (fun ev => ev.current)) ∧
      (∀ ev ∈ (processTextFile (.ok []) [] ["a", "b"]
          (fun i => if i = 0 then none else some [5])).events,
        ev.current ≤ ((2 : Nat) : Int)) ∧
      ((processTextFile (.ok []) [] ["a", "b"]
          (fun i => if i = 0 then none else some [5])).events.length
            + ([] : List DocRecord).length
        = 1 + (processTextFile (.ok []) [] ["a", "b"]
            (fun i => if i = 0 then none else some [5])).store.length) :=
  progress_events_monotone (.ok []) [] ["a", "b"]
    (fun i => if i = 0 then none else some [5]) (by decide) (by decide)
